import Mathlib

/-!
Shallow embedding of `payoff.py` (the payoff algebra of a derivative-pricing
toolkit).  Node arrays (`numpy` 1-d arrays of spot prices or portfolio values)
are modelled as `List ℚ`; `np.double` coercion is the identity on exact
rationals.  Python exceptions are modelled with `Except Err`:
`assert(t != self.T)` becomes a check returning `Err.assertionFailure`;
the unbound global `T` in `Payoff.__contains__` (line 31 of the source reads
`T` instead of `self.T`) becomes `Err.nameError`; numpy shape violations on
elementwise operations, boolean-mask indexing and masked assignment become
`Err.valueError` / `Err.indexError`.

`VariableStrike.transient` mutates `self.K` and restores it in a
`try/finally`; the embedding threads the payoff state explicitly:
`Payoff.transient` returns the result together with the post-call payoff.
-/

namespace AMF

/-- Python exceptions that the payoff layer can raise. -/
inductive Err where
  | assertionFailure
  | nameError
  | valueError
  | indexError
deriving DecidableEq, Repr

/-- A numpy value: either a scalar or a 1-d array (broadcasting is resolved
at each use site, as numpy does). -/
inductive Val where
  | scalar (x : ℚ)
  | arr (xs : List ℚ)
deriving DecidableEq, Repr

/-- Broadcast a `Val` to a list of length `n` (numpy broadcast of a scalar
against an `n`-element array; an array is returned as is). -/
def Val.asList : Val → ℕ → List ℚ
  | .scalar x, n => List.replicate n x
  | .arr xs, _ => xs

/-- A `Val` is shape-compatible with length `n`: scalars broadcast, arrays
must have exactly `n` entries. -/
def Val.shapeOk : Val → ℕ → Prop
  | .scalar _, _ => True
  | .arr xs, n => xs.length = n

/-- `np.maximum` with scalar/array broadcasting; arrays of different
lengths raise (numpy broadcast `ValueError`). -/
def vmax : Val → Val → Except Err Val
  | .scalar a, .scalar b => .ok (.scalar (max a b))
  | .scalar a, .arr ys => .ok (.arr (ys.map (fun y => max a y)))
  | .arr xs, .scalar b => .ok (.arr (xs.map (fun x => max x b)))
  | .arr xs, .arr ys =>
      if xs.length = ys.length then .ok (.arr (List.zipWith max xs ys))
      else .error .valueError

/-- Elementwise `np.maximum` on two arrays of equal length (broadcast
failure raises `ValueError`). -/
def listMax2 (xs ys : List ℚ) : Except Err (List ℚ) :=
  if xs.length = ys.length then .ok (List.zipWith max xs ys)
  else .error .valueError

/-- The boolean mask `S < L` (numpy elementwise comparison). -/
def boolMask (S : List ℚ) (L : ℚ) : List Bool :=
  S.map (fun s => decide (s < L))

/-- Boolean-mask indexing `xs[mask]`: keeps the entries of `xs` at the
positions where `mask` is `true`; a mask whose length differs from the
array's raises (`IndexError`). -/
def maskFilter : List Bool → List ℚ → Except Err (List ℚ)
  | [], [] => .ok []
  | true :: ms, x :: xs =>
      match maskFilter ms xs with
      | .ok r => .ok (x :: r)
      | .error e => .error e
  | false :: ms, _ :: xs => maskFilter ms xs
  | _, _ => .error .indexError

/-- Masked assignment into a fresh zero array: `Vp = np.zeros(len mask);
Vp[mask] = v`.  A scalar `v` broadcasts; an array must supply exactly one
entry per `true` position (otherwise numpy raises). -/
def maskScatter : List Bool → Val → Except Err (List ℚ)
  | [], .arr [] => .ok []
  | [], .arr (_ :: _) => .error .valueError
  | [], .scalar _ => .ok []
  | true :: ms, .arr (v :: vs) =>
      match maskScatter ms (.arr vs) with
      | .ok r => .ok (v :: r)
      | .error e => .error e
  | true :: _, .arr [] => .error .valueError
  | true :: ms, .scalar x =>
      match maskScatter ms (.scalar x) with
      | .ok r => .ok (x :: r)
      | .error e => .error e
  | false :: ms, w =>
      match maskScatter ms w with
      | .ok r => .ok (0 :: r)
      | .error e => .error e

/-- The concrete strike-bearing simple payoff classes of the module. -/
inductive SKind where
  | forward
  | callE
  | callA
  | putE
  | putA
  | putV
  | callVR
deriving DecidableEq, Repr

/-- Instance data of a simple strike-bearing payoff: class, maturity `T`,
strike `K`. -/
structure Simple where
  kind : SKind
  T : ℚ
  K : ℚ
deriving DecidableEq, Repr

/-- The payoff classes of `payoff.py`.  `stack` keeps the first child
separate (the constructor reads `stack[0]`, so a `Stack` is never empty);
`time` stores the processed restriction (discrete instants and closed
intervals, as the `times` setter leaves them); `varStrike` is a class
composed as `(VariableStrike, <simple strike-bearing payoff>)`, with the
concrete `strike(t)` function supplied by the composition. -/
inductive Payoff where
  | base (T : ℚ)
  | simple (sp : Simple)
  | stack (first : Payoff) (rest : List Payoff)
  | time (payoff : Payoff) (discrete : List ℚ) (continuous : List (ℚ × ℚ))
  | upAndOut (payoff : Payoff) (L : ℚ)
  | annuity (T : ℚ) (times : List ℚ) (C N R : ℚ)
  | annuityI (T : ℚ) (times : List ℚ) (C N R : ℚ)
  | varStrike (strikeFn : ℚ → ℚ) (sp : Simple)

/-- Maturity `self.T` (the constructors of the combinators inherit it from
the (first) child). -/
def Payoff.T : Payoff → ℚ
  | .base T => T
  | .simple sp => sp.T
  | .stack first _ => first.T
  | .time p _ _ => p.T
  | .upAndOut p _ => p.T
  | .annuity T _ _ _ _ => T
  | .annuityI T _ _ _ _ => T
  | .varStrike _ sp => sp.T

/-- `Time.__contains__`: `t` is a registered discrete instant, or lies in
some registered closed interval. -/
def timeMem (d : List ℚ) (c : List (ℚ × ℚ)) (t : ℚ) : Bool :=
  decide (t ∈ d) || c.any (fun lu => decide (lu.1 ≤ t) && decide (t ≤ lu.2))

/-- `t in payoff`.  Only `Time` and `Annuity` override `__contains__`;
every other class falls back to `Payoff.__contains__`, whose body
`0 <= t <= T` reads the unbound global name `T` and raises `NameError`. -/
def Payoff.contains : Payoff → ℚ → Except Err Bool
  | .time _ d c, t => .ok (timeMem d c t)
  | .annuity _ times _ _ _, t => .ok (decide (t ∈ times))
  | _, _ => .error .nameError

/-- One entry of the `times` argument of `Time`: a scalar instant or a
2-tuple interval (the setter tries tuple indexing first and falls back to
the scalar branch on `TypeError`/`IndexError`). -/
abbrev TimesEntry : Type := ℚ ⊕ (ℚ × ℚ)

/-- The `Time.times` setter: intervals are clipped to `[0, T]`
(`l = max(time[0], 0)`, `u = min(time[1], T)`); scalars are kept only when
`0 <= time <= T` (out-of-range scalars are silently dropped). -/
def setTimes (T : ℚ) : List TimesEntry → List ℚ × List (ℚ × ℚ)
  | [] => ([], [])
  | e :: es =>
      let rec_ := setTimes T es
      match e with
      | .inr lu => (rec_.1, (max lu.1 0, min lu.2 T) :: rec_.2)
      | .inl x =>
          if 0 ≤ x ∧ x ≤ T then (x :: rec_.1, rec_.2) else (rec_.1, rec_.2)

/-- `Time(payoff, times)`: the constructor routes `times` through the
setter. -/
def mkTime (p : Payoff) (entries : List TimesEntry) : Payoff :=
  .time p (setTimes p.T entries).1 (setTimes p.T entries).2

/-- `default(t, S)` of a simple strike-bearing payoff.  `CallA`/`PutA`
override it with the intrinsic value; every other simple class inherits
the zero array of the base class.  All of them `assert(t != self.T)`. -/
def simpleDefault (sp : Simple) (t : ℚ) (S : List ℚ) : Except Err (List ℚ) :=
  if t = sp.T then .error .assertionFailure
  else
    match sp.kind with
    | .callA => .ok (S.map (fun s => max (s - sp.K) 0))
    | .putA => .ok (S.map (fun s => max (sp.K - s) 0))
    | _ => .ok (S.map (fun _ => 0))

/-- `transient(t, V, S)` of a simple strike-bearing payoff.
`Forward`/`CallE`/`PutE` inherit the base identity; `CallA`/`PutA` return
`np.maximum(V, ±(S - K))`; `PutV`/`CallVR` floor/cap `V` at `K`.  All of
them `assert(t != self.T)`. -/
def simpleTransient (sp : Simple) (t : ℚ) (V S : List ℚ) :
    Except Err (List ℚ) :=
  if t = sp.T then .error .assertionFailure
  else
    match sp.kind with
    | .callA =>
        if V.length = S.length then
          .ok (List.zipWith (fun v s => max v (s - sp.K)) V S)
        else .error .valueError
    | .putA =>
        if V.length = S.length then
          .ok (List.zipWith (fun v s => max v (sp.K - s)) V S)
        else .error .valueError
    | .putV => .ok (V.map (fun v => max v sp.K))
    | .callVR => .ok (V.map (fun v => min v sp.K))
    | _ => .ok V

/-- `terminal(S)` of a simple strike-bearing payoff.  `Forward` pays
`S - K`, the calls pay `max(S - K, 0)`, the puts `max(K - S, 0)`;
`PutV`/`CallVR` inherit the zero array of the base class. -/
def simpleTerminal (sp : Simple) (S : List ℚ) : Val :=
  match sp.kind with
  | .forward => .arr (S.map (fun s => s - sp.K))
  | .callE => .arr (S.map (fun s => max (s - sp.K) 0))
  | .callA => .arr (S.map (fun s => max (s - sp.K) 0))
  | .putE => .arr (S.map (fun s => max (sp.K - s) 0))
  | .putA => .arr (S.map (fun s => max (sp.K - s) 0))
  | .putV => .arr (S.map (fun _ => 0))
  | .callVR => .arr (S.map (fun _ => 0))

mutual

/-- `default(t, S)`: residual value in the event of default at `t`.
`Stack` takes the elementwise maximum over its children, `Time` gates on
the restriction, `UpAndOut` computes the child only below the barrier,
the annuities pay `N * R`; `VariableStrike` does not override `default`,
so the simple sibling class handles it.  Every implementation (and, for
`UpAndOut`, its own body) asserts `t != self.T`. -/
def Payoff.default : Payoff → ℚ → List ℚ → Except Err (List ℚ)
  | .base T, t, S =>
      if t = T then .error .assertionFailure else .ok (S.map (fun _ => 0))
  | .simple sp, t, S => simpleDefault sp t S
  | .stack first rest, t, S =>
      if t = first.T then .error .assertionFailure
      else
        match first.default t S with
        | .error e => .error e
        | .ok V0 => defaultList rest t S V0
  | .time p d c, t, S =>
      if t = p.T then .error .assertionFailure
      else if timeMem d c t then p.default t S
      else .ok (S.map (fun _ => 0))
  | .upAndOut p L, t, S =>
      if t = p.T then .error .assertionFailure
      else
        match maskFilter (boolMask S L) S with
        | .error e => .error e
        | .ok S' =>
            match p.default t S' with
            | .error e => .error e
            | .ok vs => maskScatter (boolMask S L) (.arr vs)
  | .annuity T _ _ N R, t, S =>
      if t = T then .error .assertionFailure else .ok (S.map (fun _ => N * R))
  | .annuityI T _ _ N R, t, S =>
      if t = T then .error .assertionFailure else .ok (S.map (fun _ => N * R))
  | .varStrike _ sp, t, S => simpleDefault sp t S

/-- The loop of `Stack.default`: `V = np.maximum(V, payoff.default(t, S))`
over the remaining children. -/
def defaultList : List Payoff → ℚ → List ℚ → List ℚ → Except Err (List ℚ)
  | [], _, _, V => .ok V
  | p :: ps, t, S, V =>
      match p.default t S with
      | .error e => .error e
      | .ok W =>
          match listMax2 V W with
          | .error e => .error e
          | .ok V1 => defaultList ps t S V1

end

mutual

/-- `transient(t, V, S)` with explicit state threading: the result is the
returned value (or the exception) together with the payoff object after
the call.  Only `VariableStrike` mutates: it saves `self.K`, installs
`self.strike(t)`, delegates to the sibling class and restores the saved
strike in a `finally`.  Every implementation asserts `t != self.T` except
`UpAndOut.transient`, which masks and delegates without its own assert. -/
def Payoff.transient :
    Payoff → ℚ → List ℚ → List ℚ → Except Err (List ℚ) × Payoff
  | .base T, t, V, _ =>
      (if t = T then .error .assertionFailure else .ok V, .base T)
  | .simple sp, t, V, S => (simpleTransient sp t V S, .simple sp)
  | .stack first rest, t, V, S =>
      if t = first.T then (.error .assertionFailure, .stack first rest)
      else
        match first.transient t V S with
        | (.error e, first1) => (.error e, .stack first1 rest)
        | (.ok V1, first1) =>
            match transientList rest t V1 S with
            | (r, rest1) => (r, .stack first1 rest1)
  | .time p d c, t, V, S =>
      if t = p.T then (.error .assertionFailure, .time p d c)
      else if timeMem d c t then
        match p.transient t V S with
        | (r, p1) => (r, .time p1 d c)
      else (.ok V, .time p d c)
  | .upAndOut p L, t, V, S =>
      match maskFilter (boolMask S L) V with
      | .error e => (.error e, .upAndOut p L)
      | .ok V' =>
          match maskFilter (boolMask S L) S with
          | .error e => (.error e, .upAndOut p L)
          | .ok S' =>
              match p.transient t V' S' with
              | (.error e, p1) => (.error e, .upAndOut p1 L)
              | (.ok vs, p1) =>
                  (maskScatter (boolMask S L) (.arr vs), .upAndOut p1 L)
  | .annuity T times C N R, t, V, _ =>
      (if t = T then .error .assertionFailure else .ok V,
       .annuity T times C N R)
  | .annuityI T times C N R, t, V, _ =>
      (if t = T then .error .assertionFailure
       else if t ∈ times then .ok (V.map (fun v => v + C)) else .ok V,
       .annuityI T times C N R)
  | .varStrike f sp, t, V, S =>
      (simpleTransient ⟨sp.kind, sp.T, f t⟩ t V S,
       .varStrike f ⟨sp.kind, sp.T, sp.K⟩)

/-- The loop of `Stack.transient`: `V = payoff.transient(t, V, S)` over the
remaining children, in order, threading each child's state. -/
def transientList :
    List Payoff → ℚ → List ℚ → List ℚ → Except Err (List ℚ) × List Payoff
  | [], _, V, _ => (.ok V, [])
  | p :: ps, t, V, S =>
      match p.transient t V S with
      | (.error e, p1) => (.error e, p1 :: ps)
      | (.ok V1, p1) =>
          match transientList ps t V1 S with
          | (r, ps1) => (r, p1 :: ps1)

end

mutual

/-- `terminal(S)`: value at maturity.  `Stack` folds `np.maximum` over its
children and coerces with `np.double` (the identity here); `Time`
delegates only when `T` itself is in the restriction and otherwise
returns the scalar `0`; `UpAndOut` computes the child only below the
barrier; the annuities pay the nominal (plus the coupon, for `AnnuityI`,
when `T` is scheduled). -/
def Payoff.terminal : Payoff → List ℚ → Except Err Val
  | .base _, S => .ok (.arr (S.map (fun _ => 0)))
  | .simple sp, S => .ok (simpleTerminal sp S)
  | .stack first rest, S =>
      match first.terminal S with
      | .error e => .error e
      | .ok V0 => terminalList rest S V0
  | .time p d c, S =>
      if timeMem d c p.T then p.terminal S else .ok (.scalar 0)
  | .upAndOut p L, S =>
      match maskFilter (boolMask S L) S with
      | .error e => .error e
      | .ok S' =>
          match p.terminal S' with
          | .error e => .error e
          | .ok v =>
              match maskScatter (boolMask S L) v with
              | .error e => .error e
              | .ok W => .ok (.arr W)
  | .annuity _ _ _ N _, S => .ok (.arr (S.map (fun _ => N)))
  | .annuityI T times C N _, S =>
      if T ∈ times then .ok (.arr ((S.map (fun _ => N)).map (fun v => v + C)))
      else .ok (.arr (S.map (fun _ => N)))
  | .varStrike _ sp, S => .ok (simpleTerminal sp S)

/-- The loop of `Stack.terminal`: `V = np.maximum(V, payoff.terminal(S))`
over the remaining children. -/
def terminalList : List Payoff → List ℚ → Val → Except Err Val
  | [], _, V => .ok V
  | p :: ps, S, V =>
      match p.terminal S with
      | .error e => .error e
      | .ok W =>
          match vmax V W with
          | .error e => .error e
          | .ok V1 => terminalList ps S V1

end

mutual

/-- `coupon(t)`: scheduled cashflow.  `Stack` sums its children, `Time`
and `UpAndOut` gate on `t in self` — for `UpAndOut` that resolves to the
broken `Payoff.__contains__` and raises `NameError`; `Annuity` pays `C`
on scheduled times; every other class pays the base `0` (`AnnuityI` keeps
its coupon intrinsic and does not override `coupon`). -/
def Payoff.coupon : Payoff → ℚ → Except Err ℚ
  | .base _, _ => .ok 0
  | .simple _, _ => .ok 0
  | .stack first rest, t =>
      match first.coupon t with
      | .error e => .error e
      | .ok v0 => couponList rest t v0
  | .time p d c, t =>
      match Payoff.contains (.time p d c) t with
      | .error e => .error e
      | .ok true => p.coupon t
      | .ok false => .ok 0
  | .upAndOut p L, t =>
      match Payoff.contains (.upAndOut p L) t with
      | .error e => .error e
      | .ok true => p.coupon t
      | .ok false => .ok 0
  | .annuity T times C N R, t =>
      match Payoff.contains (.annuity T times C N R) t with
      | .error e => .error e
      | .ok true => .ok C
      | .ok false => .ok 0
  | .annuityI _ _ _ _ _, _ => .ok 0
  | .varStrike _ _, _ => .ok 0

/-- The loop of `Stack.coupon`: `V += payoff.coupon(t)` over the remaining
children. -/
def couponList : List Payoff → ℚ → ℚ → Except Err ℚ
  | [], _, v => .ok v
  | p :: ps, t, v =>
      match p.coupon t with
      | .error e => .error e
      | .ok w => couponList ps t (v + w)

end

/-- `terminal` as a plain array, broadcast to the node count (used to state
the elementwise-maximum specification of `Stack.terminal`). -/
def terminalArr (p : Payoff) (S : List ℚ) : List ℚ :=
  match p.terminal S with
  | .ok v => v.asList S.length
  | .error _ => []

/-- Structural induction over payoff trees, with a membership hypothesis
for the children of a `Stack`. -/
theorem Payoff.inductOn (motive : Payoff → Prop)
    (hb : ∀ T, motive (.base T))
    (hs : ∀ sp, motive (.simple sp))
    (hst : ∀ first rest, motive first → (∀ q ∈ rest, motive q) →
      motive (.stack first rest))
    (ht : ∀ p d c, motive p → motive (.time p d c))
    (hu : ∀ p L, motive p → motive (.upAndOut p L))
    (ha : ∀ T ts C N R, motive (.annuity T ts C N R))
    (hai : ∀ T ts C N R, motive (.annuityI T ts C N R))
    (hv : ∀ f sp, motive (.varStrike f sp)) (p : Payoff) : motive p :=
  @Payoff.rec motive (fun l => ∀ q ∈ l, motive q) hb hs hst ht hu ha hai hv
    (fun q hq => absurd hq (List.not_mem_nil q))
    (fun head tail ih1 ih2 q hq => by
      rcases List.mem_cons.mp hq with h | h
      · exact h ▸ ih1
      · exact ih2 q h) p

theorem boolMask_length (S : List ℚ) (L : ℚ) :
    (boolMask S L).length = S.length := by
  simp [boolMask]

/-- Boolean-mask indexing succeeds exactly when the mask has the array's
length, and yields one entry per `true` position. -/
theorem maskFilter_ok (ms : List Bool) (xs : List ℚ)
    (h : ms.length = xs.length) :
    ∃ ys, maskFilter ms xs = .ok ys ∧ ys.length = ms.count true := by
  induction ms generalizing xs with
  | nil =>
      cases xs with
      | nil => exact ⟨[], rfl, rfl⟩
      | cons x xs => simp at h
  | cons b ms ih =>
      cases xs with
      | nil => simp at h
      | cons x xs =>
          simp only [List.length_cons, Nat.succ_inj] at h
          obtain ⟨ys, hys, hlen⟩ := ih xs h
          cases b with
          | true =>
              refine ⟨x :: ys, ?_, ?_⟩
              · simp [maskFilter, hys]
              · simp [List.count_cons, hlen]
          | false =>
              refine ⟨ys, ?_, ?_⟩
              · simp [maskFilter, hys]
              · simp [List.count_cons, hlen]

/-- Masking an array by `S < L` and masking `S` itself picks out exactly
the entries below `L`. -/
theorem maskFilter_boolMask_self (S : List ℚ) (L : ℚ) :
    maskFilter (boolMask S L) S = .ok (S.filter (fun s => decide (s < L))) := by
  induction S with
  | nil => rfl
  | cons s S ih =>
      have hm : boolMask (s :: S) L = decide (s < L) :: boolMask S L := rfl
      by_cases h : s < L
      · have hd : decide (s < L) = true := by simpa using h
        rw [hm, hd]
        simp [maskFilter, ih, List.filter_cons, hd]
      · have hd : decide (s < L) = false := by simpa using h
        rw [hm, hd]
        simp [maskFilter, ih, List.filter_cons, hd]

theorem boolMask_count (S : List ℚ) (L : ℚ) :
    (boolMask S L).count true = (S.filter (fun s => decide (s < L))).length := by
  induction S with
  | nil => rfl
  | cons s S ih =>
      have hm : boolMask (s :: S) L = decide (s < L) :: boolMask S L := rfl
      by_cases h : s < L
      · have hd : decide (s < L) = true := by simpa using h
        rw [hm, hd]
        simp [List.count_cons, List.filter_cons, hd, ih]
      · have hd : decide (s < L) = false := by simpa using h
        rw [hm, hd]
        simp [List.count_cons, List.filter_cons, hd, ih]

/-- Masked assignment into a zero array succeeds when the value broadcasts
to the number of `true` positions; the result has the mask's length,
carries the assigned values exactly at the `true` positions, and is zero
at every `false` position. -/
theorem maskScatter_ok (ms : List Bool) (v : Val)
    (h : v.shapeOk (ms.count true)) :
    ∃ W, maskScatter ms v = .ok W ∧ W.length = ms.length ∧
      maskFilter ms W = .ok (v.asList (ms.count true)) ∧
      ∀ i, ms.getD i false = false → W.getD i 0 = 0 := by
  induction ms generalizing v with
  | nil =>
      refine ⟨[], ?_, rfl, ?_, ?_⟩
      · cases v with
        | scalar x => rfl
        | arr xs =>
            simp [Val.shapeOk, List.length_eq_zero] at h
            subst h; rfl
      · cases v with
        | scalar x => simp [maskFilter, Val.asList]
        | arr xs =>
            simp [Val.shapeOk, List.length_eq_zero] at h
            subst h; simp [maskFilter, Val.asList]
      · intro i _; simp
  | cons b ms ih =>
      cases b with
      | true =>
          cases v with
          | scalar x =>
              obtain ⟨W, hW, hlen, hfil, hzero⟩ := ih (.scalar x) trivial
              refine ⟨x :: W, ?_, ?_, ?_, ?_⟩
              · simp [maskScatter, hW]
              · simp [hlen]
              · simp [maskFilter, hfil, Val.asList, List.count_cons,
                  List.replicate_succ]
              · intro i hi
                cases i with
                | zero => simp at hi
                | succ j => simpa using hzero j (by simpa using hi)
          | arr xs =>
              have hx : xs.length = ms.count true + 1 := by
                simpa [Val.shapeOk, List.count_cons] using h
              cases xs with
              | nil => simp at hx
              | cons y ys =>
                  have hys : ys.length = ms.count true := by simpa using hx
                  obtain ⟨W, hW, hlen, hfil, hzero⟩ := ih (.arr ys) hys
                  refine ⟨y :: W, ?_, ?_, ?_, ?_⟩
                  · simp [maskScatter, hW]
                  · simp [hlen]
                  · simp [maskFilter, hfil, Val.asList, List.count_cons]
                  · intro i hi
                    cases i with
                    | zero => simp at hi
                    | succ j => simpa using hzero j (by simpa using hi)
      | false =>
          have h' : v.shapeOk (ms.count true) := by
            cases v with
            | scalar x => trivial
            | arr xs => simpa [Val.shapeOk, List.count_cons] using h
          obtain ⟨W, hW, hlen, hfil, hzero⟩ := ih v h'
          refine ⟨0 :: W, ?_, ?_, ?_, ?_⟩
          · simp [maskScatter, hW]
          · simp [hlen]
          · have : (false :: ms).count true = ms.count true := by
              simp [List.count_cons]
            simp [maskFilter, hfil, this]
          · intro i hi
            cases i with
            | zero => simp
            | succ j => simpa using hzero j (by simpa using hi)

theorem asList_length (v : Val) (n : ℕ) (h : v.shapeOk n) :
    (v.asList n).length = n := by
  cases v with
  | scalar x => simp [Val.asList]
  | arr xs => simpa [Val.asList] using h

theorem zipWith_max_replicate_left (a : ℚ) (ys : List ℚ) :
    List.zipWith max (List.replicate ys.length a) ys =
      ys.map (fun y => max a y) := by
  induction ys with
  | nil => rfl
  | cons y ys ih => simp [List.replicate_succ, ih]

theorem zipWith_max_replicate_right (b : ℚ) (xs : List ℚ) :
    List.zipWith max xs (List.replicate xs.length b) =
      xs.map (fun x => max x b) := by
  induction xs with
  | nil => rfl
  | cons x xs ih => simp [List.replicate_succ, ih]

theorem zipWith_max_replicate_both (a b : ℚ) (n : ℕ) :
    List.zipWith max (List.replicate n a) (List.replicate n b) =
      List.replicate n (max a b) := by
  induction n with
  | zero => rfl
  | succ m ih => simp [List.replicate_succ, ih]

/-- `np.maximum` succeeds on shape-compatible values and computes the
elementwise maximum after broadcasting. -/
theorem vmax_ok (v w : Val) (n : ℕ) (hv : v.shapeOk n) (hw : w.shapeOk n) :
    ∃ u, vmax v w = .ok u ∧ u.shapeOk n ∧
      u.asList n = List.zipWith max (v.asList n) (w.asList n) := by
  cases v with
  | scalar a =>
      cases w with
      | scalar b =>
          refine ⟨.scalar (max a b), rfl, trivial, ?_⟩
          show List.replicate n (max a b) =
            List.zipWith max (List.replicate n a) (List.replicate n b)
          exact (zipWith_max_replicate_both a b n).symm
      | arr ys =>
          have hy : ys.length = n := hw
          refine ⟨.arr (ys.map (fun y => max a y)), rfl, ?_, ?_⟩
          · simpa [Val.shapeOk] using hy
          · have := (zipWith_max_replicate_left a ys).symm
            rw [hy] at this
            simpa [Val.asList] using this
  | arr xs =>
      have hx : xs.length = n := hv
      cases w with
      | scalar b =>
          refine ⟨.arr (xs.map (fun x => max x b)), rfl, ?_, ?_⟩
          · simpa [Val.shapeOk] using hx
          · have := (zipWith_max_replicate_right b xs).symm
            rw [hx] at this
            simpa [Val.asList] using this
      | arr ys =>
          have hy : ys.length = n := hw
          refine ⟨.arr (List.zipWith max xs ys), ?_, ?_, ?_⟩
          · simp [vmax, hx, hy]
          · show (List.zipWith max xs ys).length = n
            rw [List.length_zipWith, hx, hy, Nat.min_self]
          · simp [Val.asList]

/-- The `Stack.terminal` loop is total and shape-preserving, given that
each remaining child's `terminal` is. -/
theorem terminalList_ok (S : List ℚ) (rest : List Payoff)
    (hrest : ∀ q ∈ rest, ∀ S' : List ℚ,
      ∃ v, q.terminal S' = .ok v ∧ v.shapeOk S'.length) :
    ∀ v0 : Val, v0.shapeOk S.length →
      ∃ v, terminalList rest S v0 = .ok v ∧ v.shapeOk S.length := by
  induction rest with
  | nil => exact fun v0 h0 => ⟨v0, rfl, h0⟩
  | cons q qs ih =>
      intro v0 h0
      obtain ⟨w, hw, hsw⟩ := hrest q (List.mem_cons_self q qs) S
      obtain ⟨u, hu, hsu, _⟩ := vmax_ok v0 w S.length h0 hsw
      obtain ⟨v, hv, hsv⟩ :=
        ih (fun q' hq' => hrest q' (List.mem_cons_of_mem q hq')) u hsu
      exact ⟨v, by simp [terminalList, hw, hu, hv], hsv⟩

/-- `terminal` never raises and returns a scalar or an array of the node
count, for every payoff of the module. -/
theorem terminal_ok (p : Payoff) :
    ∀ S : List ℚ, ∃ v, p.terminal S = .ok v ∧ v.shapeOk S.length := by
  induction p using Payoff.inductOn with
  | hb T => exact fun S => ⟨.arr (S.map (fun _ => 0)), rfl, by simp [Val.shapeOk]⟩
  | hs sp =>
      intro S
      refine ⟨simpleTerminal sp S, rfl, ?_⟩
      cases h : sp.kind <;> simp [simpleTerminal, h, Val.shapeOk]
  | hst first rest ih1 ih2 =>
      intro S
      obtain ⟨v0, h0, hs0⟩ := ih1 S
      obtain ⟨v, hv, hsv⟩ := terminalList_ok S rest ih2 v0 hs0
      exact ⟨v, by simp [Payoff.terminal, h0, hv], hsv⟩
  | ht p d c ih =>
      intro S
      by_cases h : timeMem d c p.T = true
      · obtain ⟨v, hv, hsv⟩ := ih S
        exact ⟨v, by simp [Payoff.terminal, h, hv], hsv⟩
      · exact ⟨.scalar 0, by simp [Payoff.terminal, h], trivial⟩
  | hu p L ih =>
      intro S
      obtain ⟨v, hv, hsv⟩ := ih (S.filter (fun s => decide (s < L)))
      have hsv' : v.shapeOk ((boolMask S L).count true) := by
        rw [boolMask_count]; exact hsv
      obtain ⟨W, hW, hlen, _, _⟩ := maskScatter_ok (boolMask S L) v hsv'
      refine ⟨.arr W, ?_, ?_⟩
      · simp [Payoff.terminal, maskFilter_boolMask_self, hv, hW]
      · simpa [Val.shapeOk, boolMask_length] using hlen
  | ha T ts C N R =>
      exact fun S => ⟨.arr (S.map (fun _ => N)), rfl, by simp [Val.shapeOk]⟩
  | hai T ts C N R =>
      intro S
      by_cases h : T ∈ ts
      · exact ⟨.arr ((S.map (fun _ => N)).map (fun v => v + C)),
          by simp [Payoff.terminal, h], by simp [Val.shapeOk]⟩
      · exact ⟨.arr (S.map (fun _ => N)),
          by simp [Payoff.terminal, h], by simp [Val.shapeOk]⟩
  | hv f sp =>
      intro S
      refine ⟨simpleTerminal sp S, rfl, ?_⟩
      cases h : sp.kind <;> simp [simpleTerminal, h, Val.shapeOk]

/-- The boolean loop of `Time.__contains__`, as a proposition. -/
theorem timeMem_iff (d : List ℚ) (c : List (ℚ × ℚ)) (t : ℚ) :
    timeMem d c t = true ↔ t ∈ d ∨ ∃ lu ∈ c, lu.1 ≤ t ∧ t ≤ lu.2 := by
  simp [timeMem, List.any_eq_true]

theorem boolMask_getD (S : List ℚ) (L : ℚ) (i : ℕ) (h : i < S.length) :
    (boolMask S L).getD i false = decide (S.getD i 0 < L) := by
  induction S generalizing i with
  | nil => simp at h
  | cons s S ih =>
      cases i with
      | zero => simp [boolMask]
      | succ j =>
          have hj : j < S.length := by simpa using h
          simpa [boolMask] using ih j hj

theorem forall2_le_zipWith_fst (g : ℚ → ℚ) (V S : List ℚ)
    (h : V.length = S.length) :
    List.Forall₂ (fun a b => a ≤ b) V
      (List.zipWith (fun v s => max v (g s)) V S) := by
  induction V generalizing S with
  | nil => simp
  | cons v V ih =>
      cases S with
      | nil => simp at h
      | cons s S =>
          refine List.Forall₂.cons (le_max_left v (g s)) ?_
          exact ih S (by simpa using h)

theorem forall2_intrinsic_le_zipWith (g : ℚ → ℚ) (V S : List ℚ)
    (h : V.length = S.length) (hV : ∀ v ∈ V, 0 ≤ v) :
    List.Forall₂ (fun a b => a ≤ b) (S.map (fun s => max (g s) 0))
      (List.zipWith (fun v s => max v (g s)) V S) := by
  induction V generalizing S with
  | nil =>
      cases S with
      | nil => simp
      | cons s S => simp at h
  | cons v V ih =>
      cases S with
      | nil => simp at h
      | cons s S =>
          refine List.Forall₂.cons ?_ ?_
          · exact max_le (le_max_right v (g s))
              (le_trans (hV v (List.mem_cons_self v V)) (le_max_left v (g s)))
          · exact ih S (by simpa using h)
              (fun x hx => hV x (List.mem_cons_of_mem v hx))

/-- C1: for every payoff type of the module, calling `default(t, S)` or
`transient(t, V, S)` with `t` equal to the payoff's maturity `T` raises an
assertion failure, for every node array `S` and matching value array `V`.
`UpAndOut.transient` has no assert of its own, but it delegates to its
child, which shares its maturity and asserts; every other implementation
asserts directly. -/
theorem maturity_assert_on_default_and_transient :
    ∀ p : Payoff, ∀ t : ℚ, ∀ V S : List ℚ, t = p.T → V.length = S.length →
      (p.transient t V S).1 = .error .assertionFailure ∧
        p.default t S = .error .assertionFailure := by
  intro p
  induction p using Payoff.inductOn with
  | hb T =>
      intro t V S ht _
      simp only [Payoff.T] at ht
      exact ⟨by simp [Payoff.transient, ht], by simp [Payoff.default, ht]⟩
  | hs sp =>
      intro t V S ht _
      simp only [Payoff.T] at ht
      exact ⟨by simp [Payoff.transient, simpleTransient, ht],
        by simp [Payoff.default, simpleDefault, ht]⟩
  | hst first rest ih1 ih2 =>
      intro t V S ht _
      simp only [Payoff.T] at ht
      exact ⟨by simp [Payoff.transient, ht], by simp [Payoff.default, ht]⟩
  | ht p d c ih =>
      intro t V S ht _
      simp only [Payoff.T] at ht
      exact ⟨by simp [Payoff.transient, ht], by simp [Payoff.default, ht]⟩
  | hu p L ih =>
      intro t V S ht hl
      simp only [Payoff.T] at ht
      constructor
      · have hm : (boolMask S L).length = V.length := by
          rw [boolMask_length, hl]
        obtain ⟨V', hV', hVlen⟩ := maskFilter_ok (boolMask S L) V hm
        have hS' := maskFilter_boolMask_self S L
        have hlen' : V'.length =
            (S.filter (fun s => decide (s < L))).length := by
          rw [hVlen, boolMask_count]
        have hchild := (ih t V' (S.filter (fun s => decide (s < L)))
          ht hlen').1
        rcases hp : p.transient t V' (S.filter (fun s => decide (s < L)))
          with ⟨r, p1⟩
        rw [hp] at hchild
        simp only at hchild
        subst hchild
        simp [Payoff.transient, hV', hS', hp]
      · simp [Payoff.default, ht]
  | ha T ts C N R =>
      intro t V S ht _
      simp only [Payoff.T] at ht
      exact ⟨by simp [Payoff.transient, ht], by simp [Payoff.default, ht]⟩
  | hai T ts C N R =>
      intro t V S ht _
      simp only [Payoff.T] at ht
      exact ⟨by simp [Payoff.transient, ht], by simp [Payoff.default, ht]⟩
  | hv f sp =>
      intro t V S ht _
      simp only [Payoff.T] at ht
      exact ⟨by simp [Payoff.transient, simpleTransient, ht],
        by simp [Payoff.default, simpleDefault, ht]⟩

/-- C1 witness: an `UpAndOut` over a European call, evaluated at its
maturity `t = T = 2` with one node above and one below the barrier,
raises the assertion failure in both operations. -/
theorem maturity_assert_witness :
    ((Payoff.upAndOut (.simple ⟨.callE, 2, 100⟩) 120).transient 2
        [1, 2] [110, 130]).1 = .error .assertionFailure ∧
      (Payoff.upAndOut (.simple ⟨.callE, 2, 100⟩) 120).default 2
        [110, 130] = .error .assertionFailure :=
  maturity_assert_on_default_and_transient
    (.upAndOut (.simple ⟨.callE, 2, 100⟩) 120) 2 [1, 2] [110, 130] rfl rfl

/-- C2 counterexample: for the American call with strike `K = 10`, at
`t = 0 ≠ T = 1`, value `V = [-5]` and spot `S = [8]`, the code returns
`max(V, S - K) = [-2]`, not the claimed `max(V, intrinsic(S)) =
[max(-5, max(8 - 10, 0))] = [0]`; in particular the result is below the
intrinsic value. -/
theorem callA_transient_intrinsic_counterexample :
    ((Payoff.simple ⟨.callA, 1, 10⟩).transient 0 [-5] [8]).1 =
        .ok [(-2 : ℚ)] ∧
      ((Payoff.simple ⟨.callA, 1, 10⟩).transient 0 [-5] [8]).1 ≠
        .ok [max (-5 : ℚ) (max (8 - 10) 0)] ∧
      ¬ max ((8 : ℚ) - 10) 0 ≤ (-2 : ℚ) := by
  have h2 : ((Payoff.simple ⟨.callA, 1, 10⟩).transient 0 [-5] [8]).1 =
      .ok [(-2 : ℚ)] := by
    simp [Payoff.transient, simpleTransient]
    norm_num
  refine ⟨h2, ?_, by norm_num⟩
  intro h
  rw [h2] at h
  have h3 : ([(-2 : ℚ)] : List ℚ) = [max (-5 : ℚ) (max (8 - 10) 0)] :=
    Except.ok.inj h
  simp at h3
  norm_num at h3

/-- C2 amended: for American call/put, for every `t ≠ T`, matching `V` and
`S`: `default` equals the intrinsic value `max(±(S - K), 0)`, and
`transient(t, V, S) = max(V, ±(S - K))` — the parity value, not the
intrinsic value clipped at zero.  Consequently `transient ≥ V`
elementwise, and `transient ≥ intrinsic(S)` elementwise whenever `V` is
elementwise nonnegative. -/
theorem american_default_transient (T K t : ℚ) (V S : List ℚ)
    (ht : t ≠ T) (hl : V.length = S.length) :
    (Payoff.simple ⟨.callA, T, K⟩).default t S =
        .ok (S.map (fun s => max (s - K) 0)) ∧
      (Payoff.simple ⟨.putA, T, K⟩).default t S =
        .ok (S.map (fun s => max (K - s) 0)) ∧
      ((Payoff.simple ⟨.callA, T, K⟩).transient t V S).1 =
        .ok (List.zipWith (fun v s => max v (s - K)) V S) ∧
      ((Payoff.simple ⟨.putA, T, K⟩).transient t V S).1 =
        .ok (List.zipWith (fun v s => max v (K - s)) V S) ∧
      List.Forall₂ (fun a b => a ≤ b) V
        (List.zipWith (fun v s => max v (s - K)) V S) ∧
      List.Forall₂ (fun a b => a ≤ b) V
        (List.zipWith (fun v s => max v (K - s)) V S) ∧
      ((∀ v ∈ V, 0 ≤ v) →
        List.Forall₂ (fun a b => a ≤ b) (S.map (fun s => max (s - K) 0))
          (List.zipWith (fun v s => max v (s - K)) V S)) ∧
      ((∀ v ∈ V, 0 ≤ v) →
        List.Forall₂ (fun a b => a ≤ b) (S.map (fun s => max (K - s) 0))
          (List.zipWith (fun v s => max v (K - s)) V S)) := by
  refine ⟨?_, ?_, ?_, ?_, ?_, ?_, ?_, ?_⟩
  · simp [Payoff.default, simpleDefault, ht]
  · simp [Payoff.default, simpleDefault, ht]
  · simp [Payoff.transient, simpleTransient, ht, hl]
  · simp [Payoff.transient, simpleTransient, ht, hl]
  · exact forall2_le_zipWith_fst (fun s => s - K) V S hl
  · exact forall2_le_zipWith_fst (fun s => K - s) V S hl
  · exact fun hV => forall2_intrinsic_le_zipWith (fun s => s - K) V S hl hV
  · exact fun hV => forall2_intrinsic_le_zipWith (fun s => K - s) V S hl hV

/-- C2 witness: the amended statement at `T = 1`, `K = 10`, `t = 0`,
`V = [3]`, `S = [8]`. -/
theorem american_default_transient_witness :
    ((Payoff.simple ⟨.callA, 1, 10⟩).transient 0 [3] [8]).1 =
        .ok (List.zipWith (fun v s => max v (s - 10)) [3] [8]) ∧
      (Payoff.simple ⟨.putA, 1, 10⟩).default 0 [8] =
        .ok ([8].map (fun s => max (10 - s) 0)) :=
  ⟨(american_default_transient 1 10 0 [3] [8] (by norm_num) rfl).2.2.1,
    (american_default_transient 1 10 0 [3] [8] (by norm_num) rfl).2.1⟩

/-- C3: the spec says the inherited time-membership test `t in payoff`
returns `True` iff `0 ≤ t ≤ T`; but `Payoff.__contains__` (line 31 of
`payoff.py`) reads the unbound global name `T` (the body is
`0 <= t <= T`, not `self.T`), so every call raises `NameError`.  The
theorem evaluates the embedded code on the base class (in-range and
out-of-range `t`) and on `UpAndOut.coupon`, which reaches the inherited
test through `t in self`. -/
theorem base_contains_raises_name_error :
    Payoff.contains (.base 10) 5 = .error .nameError ∧
      Payoff.contains (.base 10) 11 = .error .nameError ∧
      (Payoff.upAndOut (.simple ⟨.callE, 1, 100⟩) 120).coupon (1 / 2) =
        .error .nameError :=
  ⟨rfl, rfl, rfl⟩

/-- C4: `UpAndOut` with barrier `L` computes, in each of the three
node-valued operations, the child's value only over the sub-array of
nodes with spot strictly below `L`, and assigns zero to every node with
spot at or above `L` (`coupon` is scalar and takes no node array).  The
below-barrier positions of the result carry exactly the child's output on
the filtered arrays (for `terminal`, broadcast if the child returned a
scalar); the length hypotheses on the child's `default`/`transient`
output are the spec's shape contract.  The last conjunct is the spec's
concrete example: `terminal` of `UpAndOut(CallE(T, 100), 120)` on
`[90, 120, 150]` is `[0, 0, 0]`. -/
theorem upAndOut_barrier_masks (q : Payoff) (L t : ℚ) (V S : List ℚ)
    (_hl : V.length = S.length) (htq : t ≠ q.T) :
    (∃ v W, q.terminal (S.filter (fun s => decide (s < L))) = .ok v ∧
      (Payoff.upAndOut q L).terminal S = .ok (.arr W) ∧
      W.length = S.length ∧
      maskFilter (boolMask S L) W =
        .ok (v.asList (S.filter (fun s => decide (s < L))).length) ∧
      ∀ i, i < S.length → L ≤ S.getD i 0 → W.getD i 0 = 0) ∧
    (∀ vs, q.default t (S.filter (fun s => decide (s < L))) = .ok vs →
      vs.length = (S.filter (fun s => decide (s < L))).length →
      ∃ W, (Payoff.upAndOut q L).default t S = .ok W ∧
        W.length = S.length ∧
        maskFilter (boolMask S L) W = .ok vs ∧
        ∀ i, i < S.length → L ≤ S.getD i 0 → W.getD i 0 = 0) ∧
    (∀ V' vs, maskFilter (boolMask S L) V = .ok V' →
      (q.transient t V' (S.filter (fun s => decide (s < L)))).1 = .ok vs →
      vs.length = (S.filter (fun s => decide (s < L))).length →
      ∃ W, ((Payoff.upAndOut q L).transient t V S).1 = .ok W ∧
        W.length = S.length ∧
        maskFilter (boolMask S L) W = .ok vs ∧
        ∀ i, i < S.length → L ≤ S.getD i 0 → W.getD i 0 = 0) ∧
    (∀ Tc : ℚ,
      (Payoff.upAndOut (.simple ⟨.callE, Tc, 100⟩) 120).terminal
        [90, 120, 150] = .ok (.arr [0, 0, 0])) := by
  have hcnt : (boolMask S L).count true =
      (S.filter (fun s => decide (s < L))).length := boolMask_count S L
  have hzero : ∀ W : List ℚ,
      (∀ i, (boolMask S L).getD i false = false → W.getD i 0 = 0) →
      ∀ i, i < S.length → L ≤ S.getD i 0 → W.getD i 0 = 0 := by
    intro W hz i hi hLe
    refine hz i ?_
    rw [boolMask_getD S L i hi]
    simpa using not_lt.mpr hLe
  refine ⟨?_, ?_, ?_, ?_⟩
  · obtain ⟨v, hv, hsv⟩ := terminal_ok q (S.filter (fun s => decide (s < L)))
    have hsv' : v.shapeOk ((boolMask S L).count true) := by rw [hcnt]; exact hsv
    obtain ⟨W, hW, hWlen, hWfil, hWz⟩ := maskScatter_ok (boolMask S L) v hsv'
    refine ⟨v, W, hv, ?_, ?_, ?_, hzero W hWz⟩
    · simp [Payoff.terminal, maskFilter_boolMask_self, hv, hW]
    · rw [hWlen, boolMask_length]
    · rw [hWfil, hcnt]
  · intro vs hvs hlen
    have hsh : (Val.arr vs).shapeOk ((boolMask S L).count true) := by
      rw [hcnt]; exact hlen
    obtain ⟨W, hW, hWlen, hWfil, hWz⟩ :=
      maskScatter_ok (boolMask S L) (.arr vs) hsh
    refine ⟨W, ?_, ?_, ?_, hzero W hWz⟩
    · simp [Payoff.default, htq, maskFilter_boolMask_self, hvs, hW]
    · rw [hWlen, boolMask_length]
    · simpa [Val.asList] using hWfil
  · intro V' vs hV' hvs hlen
    have hsh : (Val.arr vs).shapeOk ((boolMask S L).count true) := by
      rw [hcnt]; exact hlen
    obtain ⟨W, hW, hWlen, hWfil, hWz⟩ :=
      maskScatter_ok (boolMask S L) (.arr vs) hsh
    refine ⟨W, ?_, ?_, ?_, hzero W hWz⟩
    · rcases hp : q.transient t V' (S.filter (fun s => decide (s < L)))
        with ⟨r, p1⟩
      rw [hp] at hvs
      simp only at hvs
      subst hvs
      simp [Payoff.transient, hV', maskFilter_boolMask_self, hp, hW]
    · rw [hWlen, boolMask_length]
    · simpa [Val.asList] using hWfil
  · intro Tc
    have hb : boolMask [90, 120, 150] (120 : ℚ) = [true, false, false] := by
      simp [boolMask]
      norm_num
    simp [Payoff.terminal, hb, maskFilter, simpleTerminal, maskScatter]
    norm_num

/-- C4 witness: the concrete-example conjunct of the theorem, extracted at
`T = 7` (the remaining hypotheses are discharged on empty arrays at
`t = 0 ≠ T = 1`). -/
theorem upAndOut_barrier_masks_witness :
    (Payoff.upAndOut (.simple ⟨.callE, 7, 100⟩) 120).terminal
      [90, 120, 150] = .ok (.arr [0, 0, 0]) :=
  (upAndOut_barrier_masks (.base 1) 120 0 [] [] rfl
    (by norm_num [Payoff.T])).2.2.2 7

/-- C5: `VariableStrike.transient` saves the strike, substitutes
`strike(t)`, delegates to the wrapped payoff's own `transient`, and
restores the saved strike on every exit path of the `try/finally`: the
post-call payoff state equals the pre-call state — in particular the
wrapped strike field is unchanged whether the delegated call returned a
value or raised — and the returned result is the sibling class's
`transient` evaluated with the substituted strike `f t`, so the
substitution is visible only for the duration of that single call. -/
theorem varStrike_scoped_substitution (f : ℚ → ℚ) (sp : Simple) (t : ℚ)
    (V S : List ℚ) :
    ((Payoff.varStrike f sp).transient t V S).2 = .varStrike f sp ∧
      ((Payoff.varStrike f sp).transient t V S).1 =
        simpleTransient ⟨sp.kind, sp.T, f t⟩ t V S := by
  cases sp
  exact ⟨rfl, rfl⟩

/-- The `Stack.terminal` loop computes the elementwise maximum of the
children's terminal values, folded left over the remaining children. -/
theorem terminalList_foldl (S : List ℚ) (rest : List Payoff) :
    ∀ v0 : Val, v0.shapeOk S.length →
      ∃ v, terminalList rest S v0 = .ok v ∧ v.shapeOk S.length ∧
        v.asList S.length =
          rest.foldl (fun acc q => List.zipWith max acc (terminalArr q S))
            (v0.asList S.length) := by
  induction rest with
  | nil => exact fun v0 h0 => ⟨v0, rfl, h0, rfl⟩
  | cons q qs ih =>
      intro v0 h0
      obtain ⟨w, hw, hsw⟩ := terminal_ok q S
      obtain ⟨u, hu, hsu, hasu⟩ := vmax_ok v0 w S.length h0 hsw
      obtain ⟨v, hv, hsv, hasv⟩ := ih u hsu
      refine ⟨v, by simp [terminalList, hw, hu, hv], hsv, ?_⟩
      have hterm : terminalArr q S = w.asList S.length := by
        simp [terminalArr, hw]
      rw [hasv, List.foldl_cons, hterm, ← hasu]

/-- C6: for every `Stack` built from a non-empty sequence of children (the
first child and the remaining ones) sharing the same maturity, `terminal`
equals the elementwise maximum of each child's independently computed
`terminal`, for every node array `S`; and the `Stack`'s maturity is
inherited from the first child. -/
theorem stack_terminal_elementwise_max (first : Payoff) (rest : List Payoff)
    (S : List ℚ) (_hT : ∀ q ∈ rest, q.T = first.T) :
    (Payoff.stack first rest).T = first.T ∧
      ∃ v, (Payoff.stack first rest).terminal S = .ok v ∧
        v.shapeOk S.length ∧
        v.asList S.length =
          rest.foldl (fun acc q => List.zipWith max acc (terminalArr q S))
            (terminalArr first S) := by
  refine ⟨rfl, ?_⟩
  obtain ⟨v0, h0, hs0⟩ := terminal_ok first S
  obtain ⟨v, hv, hsv, hasv⟩ := terminalList_foldl S rest v0 hs0
  refine ⟨v, by simp [Payoff.terminal, h0, hv], hsv, ?_⟩
  have hfirst : terminalArr first S = v0.asList S.length := by
    simp [terminalArr, h0]
  rw [hasv, hfirst]

/-- C6 witness: a stack of a European call and a European put, both with
`T = 2` and `K = 100`, on `S = [80, 120]`. -/
theorem stack_terminal_elementwise_max_witness :
    (Payoff.stack (.simple ⟨.callE, 2, 100⟩)
        [.simple ⟨.putE, 2, 100⟩]).T = 2 ∧
      ∃ v, (Payoff.stack (.simple ⟨.callE, 2, 100⟩)
          [.simple ⟨.putE, 2, 100⟩]).terminal [80, 120] = .ok v ∧
        v.shapeOk 2 ∧
        v.asList 2 =
          [Payoff.simple ⟨.putE, 2, 100⟩].foldl
            (fun acc q => List.zipWith max acc (terminalArr q [80, 120]))
            (terminalArr (.simple ⟨.callE, 2, 100⟩) [80, 120]) :=
  stack_terminal_elementwise_max (.simple ⟨.callE, 2, 100⟩)
    [.simple ⟨.putE, 2, 100⟩] [80, 120]
    (by
      intro q hq
      simp only [List.mem_singleton] at hq
      subst hq
      rfl)

/-- The spec's example restriction `{2.0, (5.0, 7.0)}` with `T = 10`, as
the `times` setter processes it. -/
theorem setTimes_example :
    setTimes 10 [.inl 2, .inr (5, 7)] = ([2], [(5, 7)]) := by
  simp [setTimes]
  norm_num

/-- C7: the `Time` membership test `t in time` returns `True` iff `t` is a
registered discrete instant or lies within some registered interval, with
inclusive bounds; for the restriction `{2.0, (5.0, 7.0)}` with `T = 10`
it holds at `2.0`, `5.0`, `6.5` and `7.0` and fails at `3.0` and
`7.5`. -/
theorem time_contains_spec :
    (∀ (p : Payoff) (d : List ℚ) (c : List (ℚ × ℚ)) (t : ℚ),
      Payoff.contains (.time p d c) t = .ok true ↔
        t ∈ d ∨ ∃ lu ∈ c, lu.1 ≤ t ∧ t ≤ lu.2) ∧
      Payoff.contains (mkTime (.base 10) [.inl 2, .inr (5, 7)]) 2 =
        .ok true ∧
      Payoff.contains (mkTime (.base 10) [.inl 2, .inr (5, 7)]) 5 =
        .ok true ∧
      Payoff.contains (mkTime (.base 10) [.inl 2, .inr (5, 7)]) (13 / 2) =
        .ok true ∧
      Payoff.contains (mkTime (.base 10) [.inl 2, .inr (5, 7)]) 7 =
        .ok true ∧
      Payoff.contains (mkTime (.base 10) [.inl 2, .inr (5, 7)]) 3 =
        .ok false ∧
      Payoff.contains (mkTime (.base 10) [.inl 2, .inr (5, 7)]) (15 / 2) =
        .ok false := by
  constructor
  · intro p d c t
    rw [← timeMem_iff]
    simp [Payoff.contains]
  refine ⟨?_, ?_, ?_, ?_, ?_, ?_⟩ <;>
    simp [mkTime, Payoff.T, setTimes_example, Payoff.contains, timeMem] <;>
    norm_num

/-- C8 counterexample: the claim says `Time.terminal` returns a zero value
over the array of nodes with the same shape as `S` when `T` is not
active; the code returns the bare scalar `0` instead (for the restriction
`{1}` with `T = 3` and `S = [50, 60]`, the result is `scalar 0`, not the
two-element zero array). -/
theorem time_terminal_scalar_counterexample :
    (mkTime (.simple ⟨.callE, 3, 100⟩) [.inl 1]).terminal [50, 60] =
        .ok (.scalar 0) ∧
      (mkTime (.simple ⟨.callE, 3, 100⟩) [.inl 1]).terminal [50, 60] ≠
        .ok (.arr [0, 0]) := by
  have hset : setTimes 3 [.inl (1 : ℚ)] = ([1], []) := by
    simp [setTimes]
  have h1 : (mkTime (.simple ⟨.callE, 3, 100⟩) [.inl 1]).terminal [50, 60] =
      .ok (.scalar 0) := by
    simp [mkTime, Payoff.T, hset, Payoff.terminal, timeMem]
  refine ⟨h1, ?_⟩
  rw [h1]
  simp

/-- C8 amended: `Time.terminal(S)` delegates to the child's `terminal(S)`
when the maturity `T` is itself in the restriction set, and otherwise
returns the scalar zero (a single zero value, not an array shaped like
`S`). -/
theorem time_terminal_gating (p : Payoff) (d : List ℚ) (c : List (ℚ × ℚ))
    (S : List ℚ) :
    ((p.T ∈ d ∨ ∃ lu ∈ c, lu.1 ≤ p.T ∧ p.T ≤ lu.2) →
        (Payoff.time p d c).terminal S = p.terminal S) ∧
      (¬ (p.T ∈ d ∨ ∃ lu ∈ c, lu.1 ≤ p.T ∧ p.T ≤ lu.2) →
        (Payoff.time p d c).terminal S = .ok (.scalar 0)) := by
  constructor
  · intro h
    have hm : timeMem d c p.T = true := (timeMem_iff d c p.T).mpr h
    simp [Payoff.terminal, hm]
  · intro h
    have hm : timeMem d c p.T = false := by
      rw [← Bool.not_eq_true]
      exact fun hb => h ((timeMem_iff d c p.T).mp hb)
    simp [Payoff.terminal, hm]

/-- C8 witness: with `T = 3` registered (restriction `{3}`) the terminal
value delegates to the child; with restriction `{1}` it is the scalar
zero. -/
theorem time_terminal_gating_witness :
    (Payoff.time (.simple ⟨.callE, 3, 100⟩) [3] []).terminal [50] =
        (Payoff.simple ⟨.callE, 3, 100⟩).terminal [50] ∧
      (Payoff.time (.simple ⟨.callE, 3, 100⟩) [1] []).terminal [50] =
        .ok (.scalar 0) :=
  ⟨(time_terminal_gating (.simple ⟨.callE, 3, 100⟩) [3] [] [50]).1
      (Or.inl (by simp [Payoff.T])),
    (time_terminal_gating (.simple ⟨.callE, 3, 100⟩) [1] [] [50]).2
      (by simp [Payoff.T])⟩

/-- C9: for a standalone bond with coupon `C = 5`, nominal `N = 100`,
schedule `{1, 2, 3}` and `T = 3` (any recovery rates): `AnnuityI.terminal`
equals `Annuity.terminal` plus `Annuity.coupon(3)` elementwise, for every
node array; and at `t = 1`, `AnnuityI.transient(1, V, S) = V + 5` while
`Annuity.transient(1, V, S)` returns `V` unchanged. -/
theorem annuityI_vs_annuity (R R' : ℚ) (V S : List ℚ) :
    (∃ Wa cp W,
      (Payoff.annuity 3 [1, 2, 3] 5 100 R).terminal S = .ok (.arr Wa) ∧
      (Payoff.annuity 3 [1, 2, 3] 5 100 R).coupon 3 = .ok cp ∧
      (Payoff.annuityI 3 [1, 2, 3] 5 100 R').terminal S = .ok (.arr W) ∧
      W = Wa.map (fun x => x + cp)) ∧
    ((Payoff.annuityI 3 [1, 2, 3] 5 100 R').transient 1 V S).1 =
      .ok (V.map (fun v => v + 5)) ∧
    ((Payoff.annuity 3 [1, 2, 3] 5 100 R).transient 1 V S).1 = .ok V := by
  refine ⟨⟨S.map (fun _ => (100 : ℚ)), 5,
    (S.map (fun _ => (100 : ℚ))).map (fun x => x + 5), rfl, ?_, ?_, rfl⟩,
    ?_, ?_⟩
  · simp [Payoff.coupon, Payoff.contains]
  · simp [Payoff.terminal]
  · simp [Payoff.transient]
  · simp [Payoff.transient]

/-- The `times` setter leaves only in-range discrete instants and clipped
intervals: every registered scalar lies in `[0, T]` and every registered
interval has `l ≥ 0` and `u ≤ T`. -/
theorem setTimes_bounds (T : ℚ) (entries : List TimesEntry) :
    (∀ x ∈ (setTimes T entries).1, 0 ≤ x ∧ x ≤ T) ∧
      ∀ lu ∈ (setTimes T entries).2, 0 ≤ lu.1 ∧ lu.2 ≤ T := by
  induction entries with
  | nil =>
      exact ⟨fun x hx => absurd hx (List.not_mem_nil x),
        fun lu hlu => absurd hlu (List.not_mem_nil lu)⟩
  | cons e es ih =>
      rcases e with x | lu
      · have hcons : setTimes T (.inl x :: es) =
            (if 0 ≤ x ∧ x ≤ T then
              (x :: (setTimes T es).1, (setTimes T es).2)
            else ((setTimes T es).1, (setTimes T es).2)) := rfl
        by_cases hx : 0 ≤ x ∧ x ≤ T
        · rw [hcons, if_pos hx]
          refine ⟨?_, ih.2⟩
          intro y hy
          rcases List.mem_cons.mp hy with h | h
          · exact h ▸ hx
          · exact ih.1 y h
        · rw [hcons, if_neg hx]
          exact ih
      · have hcons : setTimes T (.inr lu :: es) =
            ((setTimes T es).1,
              (max lu.1 0, min lu.2 T) :: (setTimes T es).2) := rfl
        rw [hcons]
        refine ⟨ih.1, ?_⟩
        intro lv hlv
        rcases List.mem_cons.mp hlv with h | h
        · exact h ▸ ⟨le_max_right lu.1 0, min_le_right lu.2 T⟩
        · exact ih.2 lv h

/-- C10: after any assignment through the `times` setter, every registered
discrete instant lies in `[0, T]` (out-of-range scalars are silently
discarded) and every registered interval `(l, u)` satisfies `l ≥ 0` and
`u ≤ T`; consequently every `t` accepted by the membership test of a
`Time` built by the constructor satisfies `0 ≤ t ≤ T`. -/
theorem times_setter_invariant (T : ℚ) (entries : List TimesEntry) :
    (∀ x ∈ (setTimes T entries).1, 0 ≤ x ∧ x ≤ T) ∧
      (∀ lu ∈ (setTimes T entries).2, 0 ≤ lu.1 ∧ lu.2 ≤ T) ∧
      ∀ (p : Payoff) (ents : List TimesEntry) (t : ℚ),
        Payoff.contains (mkTime p ents) t = .ok true → 0 ≤ t ∧ t ≤ p.T := by
  refine ⟨(setTimes_bounds T entries).1, (setTimes_bounds T entries).2, ?_⟩
  intro p ents t hc
  have hb := setTimes_bounds p.T ents
  have hm : timeMem (setTimes p.T ents).1 (setTimes p.T ents).2 t = true := by
    simpa [mkTime, Payoff.contains] using hc
  rcases (timeMem_iff _ _ t).mp hm with hd | ⟨lu, hlu, h1, h2⟩
  · exact hb.1 t hd
  · obtain ⟨hl0, huT⟩ := hb.2 lu hlu
    exact ⟨le_trans hl0 h1, le_trans h2 huT⟩

/-- C10 witness: `t = 6` is accepted by the restriction
`{2.0, (5.0, 7.0)}` on a payoff with `T = 10`, hence lies in
`[0, 10]`. -/
theorem times_setter_invariant_witness :
    (0 : ℚ) ≤ 6 ∧ (6 : ℚ) ≤ (Payoff.base 10).T :=
  (times_setter_invariant 0 []).2.2 (.base 10) [.inl 2, .inr (5, 7)] 6
    (by
      simp [mkTime, Payoff.T, setTimes_example, Payoff.contains, timeMem]
      norm_num)

end AMF
